import Mathlib

/-!
Verification of the llmcord message-handling core (src/llmcord.py and
src/cache_manager.py) against its natural-language specification.

The Python code is shallowly embedded: each relevant routine is translated
into an executable Lean function over explicit state.  Discord / network
I/O (message fetching, attachment download, message sending and editing)
is outside the model; the functions below operate on the already-resolved
data those I/O calls produce, exactly as the Python code does after its
awaits return.
-/

namespace Llmcord

/-- A tool-call descriptor as accumulated by the streaming loop
(`llmcord.py` lines 487-499): an id, a function name and a concatenated
arguments string. -/
structure ToolCallDesc where
  id : String
  fnName : String
  arguments : String
deriving DecidableEq, Repr

/-- One part of a multipart message content: a text part (optionally
carrying an Anthropic `cache_control` marker, modelled as a Bool) or an
image part. -/
inductive ContentPart where
  | text (s : String) (cacheControl : Bool)
  | image (url : String)
deriving DecidableEq, Repr

/-- The `content` field of a chat-completion message: a plain string, a
list of typed parts, or JSON null (used by assistant tool-call messages,
`llmcord.py` line 578). -/
inductive Content where
  | str (s : String)
  | parts (ps : List ContentPart)
  | null
deriving DecidableEq, Repr

/-- A chat-completion message as built by `on_message`: role, content,
optional `name` field, optional tool-call descriptors and tool metadata
(`tool_call_id` / `name` of the tool for role "tool" messages). -/
structure Msg where
  role : String
  content : Content
  userName : Option String := none
  toolCalls : List ToolCallDesc := []
  toolCallId : Option String := none
  toolFnName : Option String := none
deriving DecidableEq, Repr

/-! ## Stream Dispatcher (`llmcord.py` lines 470-512)

One completion chunk that carries a choice.  Chunks without choices are
skipped by the code (line 474-475) without touching any state, so they
are omitted from the event list.  `delta` models
`choice.delta.content` (which may be JSON null) and `finish` models
`choice.finish_reason`. -/
structure Event where
  delta : Option String
  finish : Option String
deriving DecidableEq, Repr

/-- The loop state of the streaming section: `curr_content` (initially
`None`), `finish_reason` (initially `None`) and the accumulated
`response_contents` segments. -/
structure StreamState where
  currContent : Option String
  finishReason : Option String
  responseContents : List String
deriving DecidableEq, Repr

/-- `response_contents[-1] += new_content` after a possible
`response_contents.append("")`; the list is non-empty at that point in
the code, the `[]` case is unreachable there. -/
def appendToLast (l : List String) (s : String) : List String :=
  match l with
  | [] => [s]
  | _ => l.dropLast ++ [(l.getLast?.getD "") ++ s]

/-- One iteration of the `async for curr_chunk in ...` loop restricted to
the text-segmentation state (lines 471-512).  The `if finish_reason !=
None: break` at the top of the loop is modelled by returning the state
unchanged: once `finishReason` is set it is never cleared, so skipping
every later event is the same as breaking. -/
def streamStep (maxLen : Nat) (st : StreamState) (ev : Event) : StreamState :=
  if st.finishReason ≠ none then st
  else
    let finish := ev.finish
    let prevContent := st.currContent.getD ""
    let currContent := ev.delta.getD ""
    let newContent := if finish = none then prevContent else prevContent ++ currContent
    let st1 : StreamState := ⟨some currContent, finish, st.responseContents⟩
    if st1.responseContents = [] ∧ newContent = "" then st1
    else
      let startNext : Bool :=
        match st1.responseContents.getLast? with
        | none => true
        | some last => maxLen < (last ++ newContent).length
      let contents1 := if startNext then st1.responseContents ++ [""] else st1.responseContents
      ⟨st1.currContent, st1.finishReason, appendToLast contents1 newContent⟩

/-- Run the streaming loop over a whole event sequence. -/
def runStream (maxLen : Nat) (events : List Event) : StreamState :=
  events.foldl (streamStep maxLen) ⟨none, none, []⟩

/-! ## Tool-Call Fragment Accumulator (`llmcord.py` lines 485-499) -/

/-- A streamed tool-call fragment: declared index plus optional id, name
and arguments pieces (each may be JSON null or empty). -/
structure ToolCallFragment where
  index : Nat
  id : Option String
  fnName : Option String
  arguments : Option String
deriving DecidableEq, Repr

/-- The blank invocation appended by lines 488-492. -/
def blankToolCall : ToolCallDesc := ⟨"", "", ""⟩

/-- Lines 487-492: append one blank invocation when
`len(tool_calls) <= tool_call.index`. -/
def fragAppend (acc : List ToolCallDesc) (f : ToolCallFragment) : List ToolCallDesc :=
  if acc.length ≤ f.index then acc ++ [blankToolCall] else acc

/-- One `tool_calls[i] = ...` / `+= ...` statement: the index access
raises a Python `IndexError` (modelled as `none`) when `i` is past the
end of the list. -/
def setAtIdx (l : List ToolCallDesc) (i : Nat) (g : ToolCallDesc → ToolCallDesc) :
    Option (List ToolCallDesc) :=
  if h : i < l.length then some (l.set i (g (l.get ⟨i, h⟩))) else none

/-- Lines 486-499 for a single fragment: the blank-append guard, then the
three separately guarded statements of lines 494-499 — each
`tool_calls[tool_call.index]` access happens only when the corresponding
fragment field (`id`, `function.name`, `function.arguments`) is truthy,
so a fragment whose fields are all falsy performs no index access at
all.  Failure of any access aborts the statement sequence, as the raised
`IndexError` would. -/
def fragStep (acc : List ToolCallDesc) (f : ToolCallFragment) : Option (List ToolCallDesc) :=
  (if f.id.getD "" ≠ "" then
      setAtIdx (fragAppend acc f) f.index fun a => { a with id := f.id.getD "" }
    else some (fragAppend acc f)).bind fun acc2 =>
    (if f.fnName.getD "" ≠ "" then
        setAtIdx acc2 f.index fun a => { a with fnName := f.fnName.getD "" }
      else some acc2).bind fun acc3 =>
      if f.arguments.getD "" ≠ "" then
        setAtIdx acc3 f.index fun a => { a with arguments := a.arguments ++ f.arguments.getD "" }
      else some acc3

/-- Process a stream of fragments (the concatenation, in arrival order, of
every event's `choice.delta.tool_calls` list), propagating an index error. -/
def runFrags (acc : List ToolCallDesc) : List ToolCallFragment → Option (List ToolCallDesc)
  | [] => some acc
  | f :: fs =>
    match fragStep acc f with
    | some acc1 => runFrags acc1 fs
    | none => none

/-- The precondition of claim C10: every arriving fragment's declared
index is at most the number of invocations accumulated so far. -/
def fragsOk (acc : List ToolCallDesc) : List ToolCallFragment → Bool
  | [] => true
  | f :: fs =>
    decide (f.index ≤ acc.length) &&
      (match fragStep acc f with
       | some acc1 => fragsOk acc1 fs
       | none => false)

/-! ## Tool-Call Loop round (`llmcord.py` lines 548-597) -/

/-- Outcome of one call to the external tool executor
(`discord_tools.handle_tool_call`): a JSON-serializable result, or the
exception message caught at lines 571-573. -/
inductive ToolOutcome where
  | ok (resultJson : String)
  | err (message : String)
deriving DecidableEq, Repr

/-- `json.dumps(tool_results[i])`: the normal result is already the
serialized payload; a failure was stored as `{"error": str(e)}`. -/
def dumpToolResult : ToolOutcome → String
  | .ok r => r
  | .err e => "\x7b\"error\": \"" ++ e ++ "\"\x7d"

/-- Lines 548-573: execute every accumulated call in order; a failing call
contributes an error payload and does not stop the iteration over the
remaining calls. -/
def runTools (exec : ToolCallDesc → ToolOutcome) (calls : List ToolCallDesc) :
    List ToolOutcome :=
  calls.map exec

/-- The assistant message inserted at lines 576-580: role "assistant",
content JSON null, carrying the full descriptor set. -/
def assistantToolMsg (calls : List ToolCallDesc) : Msg :=
  { role := "assistant", content := .null, toolCalls := calls }

/-- One tool-role result message (lines 592-597). -/
def toolResultMsg (c : ToolCallDesc) (r : ToolOutcome) : Msg :=
  { role := "tool", content := .str (dumpToolResult r),
    toolCallId := some c.id, toolFnName := some c.fnName }

/-- Lines 576-597: `messages.insert(0, assistant_msg)` followed by
`messages.insert(0, tool_msg_i)` for each call in order.  `insert(0, x)`
on the newest-first list is `x :: ·`. -/
def insertToolRound (messages : List Msg) (calls : List ToolCallDesc)
    (results : List ToolOutcome) : List Msg :=
  (calls.zip results).foldl (fun acc cr => toolResultMsg cr.1 cr.2 :: acc)
    (assistantToolMsg calls :: messages)

/-- A whole tool round: run the executor on every accumulated call, then
build the message list for the next request (still newest-first; it is
reversed at transmission, line 606 `messages[::-1]`). -/
def toolRound (exec : ToolCallDesc → ToolOutcome) (messages : List Msg)
    (calls : List ToolCallDesc) : List Msg :=
  insertToolRound messages calls (runTools exec calls)

/-! ## Node Store & Context Assembler (`llmcord.py` lines 310-394, 437-441) -/

/-- A populated conversation node, as it stands after the population
block (lines 316-364) resolved text, images, role and author identity.
Attachment and parent fetching are platform I/O and outside the model;
the walk below consumes the resolved fields exactly as lines 366-394 do. -/
structure Node where
  text : String
  images : List String
  role : String
  userId : Option Nat
  displayName : Option String
deriving DecidableEq, Repr

/-- Lines 366-369: truncate images to `max_images`; if any remain, the
content is multipart (text part only when the truncated text is
non-empty), otherwise it is the truncated text string. -/
def nodeContent (maxText maxImages : Nat) (n : Node) : Content :=
  if n.images.take maxImages ≠ [] then
    .parts ((if n.text.take maxText ≠ "" then [ContentPart.text (n.text.take maxText) false] else [])
      ++ (n.images.take maxImages).map ContentPart.image)
  else .str (n.text.take maxText)

/-- Lines 372-377: prefix user messages with the author's display name;
for multipart content the prefix goes onto the first part when it is a
text part. -/
def addDisplayName (n : Node) (c : Content) : Content :=
  match n.displayName with
  | some d =>
    if n.role = "user" then
      match c with
      | .str s => .str ("[" ++ d ++ "]: " ++ s)
      | .parts (ContentPart.text t cc :: rest) => .parts (ContentPart.text ("[" ++ d ++ "]: " ++ t) cc :: rest)
      | other => other
    else c
  | none => c

/-- Lines 366-383 for one node: the message appended for it, or `none`
when `content != ""` fails (empty string content; multipart content is
never the empty string). -/
def emitMsg (acceptUsernames : Bool) (maxText maxImages : Nat) (n : Node) : Option Msg :=
  let content := nodeContent maxText maxImages n
  if content = .str "" then none
  else some
    { role := n.role
      content := addDisplayName n content
      userName :=
        if acceptUsernames ∧ n.userId ≠ none then some (toString (n.userId.getD 0)) else none }

/-- The reply-chain walk (lines 310-394) restricted to message-list
construction: the chain is given newest-first (leaf first, each node
followed by its parent), and the loop runs while a node remains and
`len(messages) < max_messages`, appending the emitted message (if any)
to the end of the newest-first list. -/
def buildChain (acceptUsernames : Bool) (maxText maxImages maxMessages : Nat) :
    List Node → List Msg → List Msg
  | [], acc => acc
  | n :: rest, acc =>
    if acc.length < maxMessages then
      buildChain acceptUsernames maxText maxImages maxMessages rest
        (acc ++ (emitMsg acceptUsernames maxText maxImages n).toList)
    else acc

/-- The list actually transmitted to the provider: `messages[::-1]`
(line 439). -/
def transmittedChain (acceptUsernames : Bool) (maxText maxImages maxMessages : Nat)
    (nodes : List Node) : List Msg :=
  (buildChain acceptUsernames maxText maxImages maxMessages nodes []).reverse

/-! ## Node Store eviction (`llmcord.py` lines 36, 676-680) -/

def MAX_MESSAGE_NODES : Nat := 2000

/-- Lines 676-680: when the store holds more than `MAX_MESSAGE_NODES`
nodes, pop the `num_nodes - MAX_MESSAGE_NODES` numerically lowest message
ids.  The store is modelled by its key set. -/
def evictStore (s : Finset ℕ) : Finset ℕ :=
  if MAX_MESSAGE_NODES < s.card then
    s \ ((s.sort (· ≤ ·)).take (s.card - MAX_MESSAGE_NODES)).toFinset
  else s

/-- One `on_message` turn as seen by the Node Store: the walk and the
reply bookkeeping insert some set of message ids (`msg_nodes.setdefault`
at line 313, direct stores at lines 534, 635, 643, 666), and the handler
ends with the eviction pass. -/
def nodeStoreTurn (s newIds : Finset ℕ) : Finset ℕ :=
  evictStore (s ∪ newIds)

/-! ## Python `sorted`

Python's `sorted` is a stable sort; any two stable sorts with the same
comparison compute the same list, so it is modelled by a structurally
recursive stable insertion sort (kernel-computable, unlike
`List.mergeSort`). -/

/-- Insert `a` before the first element it compares `le` to (keeping it
after earlier equal elements — stability). -/
def orderedInsertB {α : Type} (le : α → α → Bool) (a : α) : List α → List α
  | [] => [a]
  | b :: l => if le a b then a :: b :: l else b :: orderedInsertB le a l

/-- Stable sort by the boolean comparison `le` (the model of Python
`sorted`). -/
def stableSort {α : Type} (le : α → α → Bool) : List α → List α
  | [] => []
  | a :: l => orderedInsertB le a (stableSort le l)

lemma orderedInsertB_perm {α : Type} (le : α → α → Bool) (a : α) :
    ∀ l : List α, (orderedInsertB le a l).Perm (a :: l)
  | [] => List.Perm.refl _
  | b :: l => by
    unfold orderedInsertB
    by_cases h : le a b
    · rw [if_pos h]
    · rw [if_neg h]
      exact ((orderedInsertB_perm le a l).cons b).trans (List.Perm.swap a b l)

lemma stableSort_perm {α : Type} (le : α → α → Bool) :
    ∀ l : List α, (stableSort le l).Perm l
  | [] => List.Perm.refl _
  | a :: l => by
    unfold stableSort
    exact (orderedInsertB_perm le a _).trans ((stableSort_perm le l).cons a)

lemma mem_orderedInsertB {α : Type} (le : α → α → Bool) (a x : α) (l : List α) :
    x ∈ orderedInsertB le a l ↔ x = a ∨ x ∈ l := by
  rw [(orderedInsertB_perm le a l).mem_iff]
  simp

lemma sorted_orderedInsertB {α : Type} (le : α → α → Bool)
    (htrans : ∀ x y z, le x y = true → le y z = true → le x z = true)
    (htotal : ∀ x y, le x y = true ∨ le y x = true) (a : α) :
    ∀ l : List α, l.Pairwise (fun x y => le x y = true) →
      (orderedInsertB le a l).Pairwise (fun x y => le x y = true)
  | [], _ => by simp [orderedInsertB]
  | b :: l, hp => by
    unfold orderedInsertB
    rw [List.pairwise_cons] at hp
    obtain ⟨hb, hl⟩ := hp
    by_cases h : le a b
    · rw [if_pos h]
      refine List.Pairwise.cons ?_ (List.Pairwise.cons hb hl)
      intro x hx
      rcases List.mem_cons.mp hx with rfl | hx
      · exact h
      · exact htrans a b x h (hb x hx)
    · rw [if_neg h]
      refine List.Pairwise.cons ?_ (sorted_orderedInsertB le htrans htotal a l hl)
      intro x hx
      rw [mem_orderedInsertB] at hx
      rcases hx with hx | hx
      · subst hx
        rcases htotal x b with ht | ht
        · exact absurd ht h
        · exact ht
      · exact hb x hx

lemma sorted_stableSort {α : Type} (le : α → α → Bool)
    (htrans : ∀ x y z, le x y = true → le y z = true → le x z = true)
    (htotal : ∀ x y, le x y = true ∨ le y x = true) :
    ∀ l : List α, (stableSort le l).Pairwise (fun x y => le x y = true)
  | [] => List.Pairwise.nil
  | a :: l => by
    unfold stableSort
    exact sorted_orderedInsertB le htrans htotal a _ (sorted_stableSort le htrans htotal l)

/-! ## Cache Breakpoint Selector (`llmcord.py` lines 106-162)

`apply_anthropic_cache_control` is called at line 430 on the internal
message list, which at that point is still newest-first with the system
message appended at the end (line 403); the reversal to wire order
happens only afterwards, at line 439. -/

/-- Lines 123-125: convert plain-string content to a one-part multipart
list. -/
def toMultipart (m : Msg) : Msg :=
  match m.content with
  | .str s => { m with content := .parts [ContentPart.text s false] }
  | _ => m

/-- A caching candidate (lines 136-142). -/
structure CacheCandidate where
  msgIdx : Nat
  contentIdx : Nat
  length : Nat
  priority : Nat
  role : String
deriving DecidableEq, Repr

/-- Lines 130-142 for one message: every text part of length at least
`minLen` becomes a candidate; priority 0 for system-role messages and
`msg_idx + 1` otherwise. -/
def msgCandidates (minLen : Nat) (msgIdx : Nat) (m : Msg) : List CacheCandidate :=
  match m.content with
  | .parts ps =>
    ps.enum.filterMap fun ip =>
      match ip.2 with
      | .text t _ =>
        if minLen ≤ t.length then
          some ⟨msgIdx, ip.1, t.length, if m.role = "system" then 0 else msgIdx + 1, m.role⟩
        else none
      | .image _ => none
  | _ => []

/-- All candidates of the (already multipart-converted) message list. -/
def cacheCandidates (minLen : Nat) (msgs : List Msg) : List CacheCandidate :=
  (msgs.enum.map fun im => msgCandidates minLen im.1 im.2).flatten

/-- The comparison realised by Python `sorted` with key
`(priority, -length)` (line 145): lexicographic, ascending priority then
descending length. -/
def candLe (a b : CacheCandidate) : Bool :=
  a.priority < b.priority || (a.priority == b.priority && b.length ≤ a.length)

/-- The sorted candidate list of line 145 (a stable sort, like Python
`sorted`). -/
def sortedCandidates (minLen : Nat) (msgs : List Msg) : List CacheCandidate :=
  stableSort candLe (cacheCandidates minLen (msgs.map toMultipart))

/-- Replace the element at index `i` (identity elsewhere). -/
def modifyIdx {α : Type} : List α → Nat → (α → α) → List α
  | [], _, _ => []
  | a :: l, 0, f => f a :: l
  | a :: l, i + 1, f => a :: modifyIdx l i f

/-- Line 154: set `cache_control` on the text part at the candidate's
position. -/
def markMsg (msgs : List Msg) (msgIdx contentIdx : Nat) : List Msg :=
  modifyIdx msgs msgIdx fun m =>
    match m.content with
    | .parts ps =>
      { m with content := .parts (modifyIdx ps contentIdx fun p =>
          match p with
          | .text t _ => .text t true
          | other => other) }
    | other => { m with content := other }

/-- `apply_anthropic_cache_control` (lines 106-162): convert to
multipart, collect and sort candidates, and mark the first
`MAX_BREAKPOINTS = 4` of them. -/
def applyAnthropicCacheControl (minLen : Nat) (messages : List Msg) : List Msg :=
  let msgs := messages.map toMultipart
  let cands := stableSort candLe (cacheCandidates minLen msgs)
  (cands.take 4).foldl (fun ms c => markMsg ms c.msgIdx c.contentIdx) msgs

/-- 1 when a part carries `cache_control`, else 0. -/
def partMark : ContentPart → Nat
  | .text _ cc => if cc then 1 else 0
  | .image _ => 0

/-- Number of parts marked with `cache_control` in one message. -/
def msgMarkCount (m : Msg) : Nat :=
  match m.content with
  | .parts ps => (ps.map partMark).sum
  | _ => 0

/-- Number of parts marked with `cache_control` in a message list. -/
def markCount (msgs : List Msg) : Nat :=
  (msgs.map msgMarkCount).sum

/-- Whether the part at position `(i, j)` carries `cache_control`. -/
def markedAt (msgs : List Msg) (i j : Nat) : Bool :=
  match msgs.get? i with
  | some m =>
    match m.content with
    | .parts ps =>
      match ps.get? j with
      | some (.text _ cc) => cc
      | _ => false
    | _ => false
  | none => false

/-! ## Prompt Cache (`src/cache_manager.py`)

`time.time()` values are passed in explicitly as integers; the content
digest `hashlib.sha256(...).hexdigest()[:16]` is an external library
call, passed in as a function parameter `hf` (the code uses it purely as
a content key). -/

/-- `CacheEntry` (cache_manager.py lines 16-31). -/
structure CacheEntry where
  content : String
  hash : String
  model : String
  timestamp : Int
  hits : Nat
  lastAccessed : Int
  tokenCount : Nat
deriving DecidableEq, Repr

/-- `CacheEntry.access` (lines 28-31). -/
def CacheEntry.access (e : CacheEntry) (now : Int) : CacheEntry :=
  { e with hits := e.hits + 1, lastAccessed := now }

/-- `CacheManager` state: configuration, the content-addressed entry
list (dict values in insertion order; `hash` is the key) and the used
`cache_stats` counters. -/
structure CacheState where
  maxCacheSize : Nat
  ttlSeconds : Int
  cache : List CacheEntry
  statWrites : Nat
  statHits : Nat
  statEvictTtl : Nat
  statEvictLru : Nat
deriving DecidableEq, Repr

/-- `CacheManager.__init__` (lines 37-41) restricted to the modelled
fields (`max_cache_size=100`, `ttl_seconds=300`, empty dict, zeroed
counters). -/
def initCacheState (maxSize : Nat) (ttl : Int) : CacheState :=
  ⟨maxSize, ttl, [], 0, 0, 0, 0⟩

/-- The allow-list `supported_models` (lines 42-54). -/
def supportedModels : List String :=
  ["anthropic/claude-3-opus", "anthropic/claude-3-sonnet",
   "anthropic/claude-3-5-sonnet", "anthropic/claude-3-7-sonnet",
   "openai/gpt-4", "openai/gpt-4-turbo", "openai/gpt-4o",
   "openai/gpt-4o-mini", "deepseek/deepseek-r1",
   "google/gemini-2-5-pro", "google/gemini-2-5-flash"]

/-- Whether `needle` is an initial run of `hay` (char lists). -/
def startsWithList : List Char → List Char → Bool
  | _, [] => true
  | [], _ :: _ => false
  | h :: hs, n :: ns => h == n && startsWithList hs ns

/-- Whether `needle` occurs contiguously in `hay` (char lists). -/
def containsSub (needle : List Char) : List Char → Bool
  | [] => needle.isEmpty
  | c :: rest => startsWithList (c :: rest) needle || containsSub needle rest

/-- Python `needle in hay` on strings. -/
def strContains (hay needle : String) : Bool :=
  containsSub needle.toList hay.toList

/-- Python `str.lower()` (ASCII case folding, which covers every model
name in the allow-list). -/
def lowerStr (s : String) : String :=
  String.mk (s.toList.map Char.toLower)

/-- `any(supported in model.lower() for supported in self.supported_models)`. -/
def modelSupported (model : String) : Bool :=
  supportedModels.any fun su => strContains (lowerStr model) su

/-- `_should_cache` (lines 60-71). -/
def shouldCache (content model : String) : Bool :=
  if ¬ modelSupported model then false
  else if content.length < 100 then false
  else true

/-- `_evict_old_entries` (lines 73-97): drop every entry older than the
TTL (counting each in `evictions_ttl`), then, if still above
`max_cache_size`, drop the least-recently-accessed surplus (counting
each in `evictions_lru`).  Python `sorted` is stable and
modelled by `stableSort`; `del self.cache[key]` is removal by key. -/
def evictOldEntries (now : Int) (st : CacheState) : CacheState :=
  let expired := st.cache.filter fun e => st.ttlSeconds < now - e.timestamp
  let kept := st.cache.filter fun e => ¬ st.ttlSeconds < now - e.timestamp
  let st1 : CacheState :=
    { st with cache := kept, statEvictTtl := st.statEvictTtl + expired.length }
  if st.maxCacheSize < kept.length then
    let sortedE := stableSort (fun a b => a.lastAccessed ≤ b.lastAccessed) kept
    let removedKeys := (sortedE.take (kept.length - st.maxCacheSize)).map (·.hash)
    { st1 with
      cache := kept.filter fun e => ¬ removedKeys.contains e.hash
      statEvictLru := st1.statEvictLru + (kept.length - st.maxCacheSize) }
  else st1

/-- `len(content.split())` (line 141): Python `str.split()` splits on
whitespace runs and drops empty pieces. -/
def tokenEstimate (s : String) : Nat :=
  ((s.split fun c => c.isWhitespace).filter fun w => w ≠ "").length

/-- Lines 134-146: record one cache-eligible content string — insert a
new entry (counting a write) when the hash is absent, otherwise update
the existing entry via `access` (counting a hit). -/
def recordContent (hf : String → String) (now : Int) (content model : String)
    (st : CacheState) : CacheState :=
  let h := hf content
  if (st.cache.find? fun e => e.hash == h).isSome then
    { st with
      cache := st.cache.map fun e => if e.hash == h then e.access now else e
      statHits := st.statHits + 1 }
  else
    { st with
      cache := st.cache ++ [⟨content, h, model, now, 0, now, tokenEstimate content⟩]
      statWrites := st.statWrites + 1 }

/-- The per-message body of `prepare_messages_for_caching` (lines
110-158), restricted to its cache-state effect: only an Anthropic model
with a system message, or a user message with a string content longer
than 500, reaches the `_should_cache` gate; the OpenAI / Gemini branches
are no-ops on the state. -/
def prepareStep (hf : String → String) (now : Int) (model : String)
    (st : CacheState) (m : Msg) : CacheState :=
  let eligible : Bool :=
    m.role == "system" ||
      (m.role == "user" &&
        match m.content with | .str s => decide (500 < s.length) | _ => false)
  if eligible then
    if strContains (lowerStr model) "anthropic" then
      match m.content with
      | .str s => if shouldCache s model then recordContent hf now s model st else st
      | _ => st
    else st
  else st

/-- `prepare_messages_for_caching` (lines 99-163) restricted to its
cache-state effect: unsupported models return unchanged; otherwise each
message is processed in order and `_evict_old_entries` runs at the end
(line 161). -/
def prepareMessagesState (hf : String → String) (now : Int)
    (msgs : List Msg) (model : String) (st : CacheState) : CacheState :=
  if ¬ modelSupported model then st
  else evictOldEntries now (msgs.foldl (prepareStep hf now model) st)

/-- The `hit_rate` field of `get_cache_stats` (lines 200-205). -/
def hitRate (st : CacheState) : ℚ :=
  if 0 < st.statHits + st.statWrites then
    (st.statHits : ℚ) / ((st.statHits : ℚ) + (st.statWrites : ℚ))
  else 0

/-! ## Theorems -/

/-! ### C10 — tool-call fragment accumulation bounds -/

lemma setAtIdx_length {l l2 : List ToolCallDesc} {i : Nat}
    {g : ToolCallDesc → ToolCallDesc} (h : setAtIdx l i g = some l2) :
    l2.length = l.length := by
  unfold setAtIdx at h
  split at h
  · cases h
    simp
  · cases h

lemma setAtIdx_isSome_of_lt (l : List ToolCallDesc) (i : Nat)
    (g : ToolCallDesc → ToolCallDesc) (h : i < l.length) :
    (setAtIdx l i g).isSome = true := by
  unfold setAtIdx
  rw [dif_pos h]
  rfl

lemma guard_length {P : Prop} [Decidable P] {l l2 : List ToolCallDesc} {i : Nat}
    {g : ToolCallDesc → ToolCallDesc}
    (hh : (if P then setAtIdx l i g else some l) = some l2) : l2.length = l.length := by
  split at hh
  · exact setAtIdx_length hh
  · cases hh
    rfl

lemma guardStep_some (P : Prop) [Decidable P] (l : List ToolCallDesc) (i : Nat)
    (g : ToolCallDesc → ToolCallDesc) (h : i < l.length) :
    ∃ l2, (if P then setAtIdx l i g else some l) = some l2 ∧ l2.length = l.length := by
  by_cases hp : P
  · rw [if_pos hp]
    obtain ⟨l2, hl2⟩ := Option.isSome_iff_exists.mp (setAtIdx_isSome_of_lt l i g h)
    exact ⟨l2, hl2, setAtIdx_length hl2⟩
  · rw [if_neg hp]
    exact ⟨l, rfl, rfl⟩

lemma fragAppend_lt (acc : List ToolCallDesc) (f : ToolCallFragment)
    (h : f.index ≤ acc.length) : f.index < (fragAppend acc f).length := by
  unfold fragAppend
  by_cases hle : acc.length ≤ f.index
  · rw [if_pos hle, List.length_append]
    simp only [List.length_cons, List.length_nil]
    omega
  · rw [if_neg hle]
    omega

lemma fragAppend_length_le (acc : List ToolCallDesc) (f : ToolCallFragment) :
    (fragAppend acc f).length ≤ acc.length + 1 := by
  unfold fragAppend
  by_cases hle : acc.length ≤ f.index
  · rw [if_pos hle, List.length_append]
    simp only [List.length_cons, List.length_nil]
    omega
  · rw [if_neg hle]
    omega

lemma fragStep_isSome_of_le (acc : List ToolCallDesc) (f : ToolCallFragment)
    (h : f.index ≤ acc.length) : (fragStep acc f).isSome = true := by
  have hlt := fragAppend_lt acc f h
  unfold fragStep
  obtain ⟨acc2, h2, hl2⟩ := guardStep_some (f.id.getD "" ≠ "") (fragAppend acc f)
    f.index (fun a => { a with id := f.id.getD "" }) hlt
  rw [h2, Option.some_bind]
  obtain ⟨acc3, h3, hl3⟩ := guardStep_some (f.fnName.getD "" ≠ "") acc2
    f.index (fun a => { a with fnName := f.fnName.getD "" }) (hl2 ▸ hlt)
  rw [h3, Option.some_bind]
  by_cases h4 : f.arguments.getD "" ≠ ""
  · rw [if_pos h4]
    apply setAtIdx_isSome_of_lt
    rw [hl3, hl2]
    exact hlt
  · rw [if_neg h4]
    rfl

lemma fragStep_length (acc a1 : List ToolCallDesc) (f : ToolCallFragment)
    (h : fragStep acc f = some a1) : a1.length ≤ acc.length + 1 := by
  have happ := fragAppend_length_le acc f
  unfold fragStep at h
  cases hm2 : (if f.id.getD "" ≠ "" then
      setAtIdx (fragAppend acc f) f.index fun a => { a with id := f.id.getD "" }
    else some (fragAppend acc f)) with
  | none =>
    rw [hm2, Option.none_bind] at h
    cases h
  | some acc2 =>
    rw [hm2, Option.some_bind] at h
    have hl2 : acc2.length = (fragAppend acc f).length := guard_length hm2
    cases hm3 : (if f.fnName.getD "" ≠ "" then
        setAtIdx acc2 f.index fun a => { a with fnName := f.fnName.getD "" }
      else some acc2) with
    | none =>
      rw [hm3, Option.none_bind] at h
      cases h
    | some acc3 =>
      rw [hm3, Option.some_bind] at h
      have hl3 : acc3.length = acc2.length := guard_length hm3
      have hl4 : a1.length = acc3.length := guard_length h
      omega

/-- An out-of-range fragment whose fields are all falsy performs no index
access: the code only appends one blank invocation and moves on. -/
lemma fragStep_out_of_range_all_falsy :
    fragStep [] ⟨1, none, none, none⟩ = some [blankToolCall] := by decide

lemma runFrags_isSome_of_ok : ∀ (fs : List ToolCallFragment) (acc : List ToolCallDesc),
    fragsOk acc fs = true → (runFrags acc fs).isSome = true
  | [], acc, _ => by simp [runFrags]
  | f :: fs, acc, h => by
    unfold fragsOk at h
    rw [Bool.and_eq_true] at h
    obtain ⟨-, h2⟩ := h
    unfold runFrags
    cases hstep : fragStep acc f with
    | none => rw [hstep] at h2; cases h2
    | some acc1 =>
      rw [hstep] at h2
      exact runFrags_isSome_of_ok fs acc1 h2

/-- C10: under the precondition that every arriving fragment's declared
index is at most the current number of accumulated invocations
(`fragsOk`), the accumulation of `llmcord.py` lines 485-499 never indexes
past the end of `tool_calls`; the guard appends at most one blank
invocation per fragment; and there is an event stream containing a
fragment whose index exceeds the current count for which the index
access is out of bounds — a fragment with index 1 and a truthy id on an
empty accumulator makes `tool_calls[1]` raise `IndexError` after the
single blank append leaves the list at length 1. -/
theorem c10_fragment_accumulation_bounds (acc : List ToolCallDesc)
    (fs : List ToolCallFragment) (h : fragsOk acc fs = true) :
    (runFrags acc fs).isSome = true ∧
    (∀ (a : List ToolCallDesc) (f : ToolCallFragment),
      f.index ≤ a.length → (fragStep a f).isSome = true) ∧
    (∀ (a a1 : List ToolCallDesc) (f : ToolCallFragment),
      fragStep a f = some a1 → a1.length ≤ a.length + 1) ∧
    runFrags [] [⟨1, some "x", none, none⟩] = none := by
  refine ⟨runFrags_isSome_of_ok fs acc h, fragStep_isSome_of_le, ?_, by decide⟩
  exact fun a a1 f hf => fragStep_length a a1 f hf

/-- Witness for C10 at a concrete fragment stream: one fragment opening
index 0 and one appending to it. -/
theorem c10_witness :
    fragsOk [] [⟨0, some "x", some "f", some "a"⟩, ⟨0, none, none, some "b"⟩] = true ∧
    (runFrags [] [⟨0, some "x", some "f", some "a"⟩, ⟨0, none, none, some "b"⟩]).isSome = true :=
  ⟨by decide,
   (c10_fragment_accumulation_bounds []
     [⟨0, some "x", some "f", some "a"⟩, ⟨0, none, none, some "b"⟩] (by decide)).1⟩

/-! ### C4 — tool round message construction and ordering -/

/-- C4, amended: with two accumulated calls of which the executor
succeeds on one and fails on the other, the loop executes both calls
(the failure does not abort the round), and the next request's internal
list reversed for transmission consists of the older history (oldest
first), then exactly one assistant-role message carrying both descriptors
with null content, then exactly two tool-role messages — one with the
serialized normal result and one with the error payload.  (The original
claim's final clause had the history ordering backwards: the tool results
follow the older history on the wire, they do not precede it.) -/
theorem c4_tool_round_amended (hist : List Msg) (c1 c2 : ToolCallDesc)
    (exec : ToolCallDesc → ToolOutcome) (r e : String)
    (h1 : exec c1 = .ok r) (h2 : exec c2 = .err e) :
    runTools exec [c1, c2] = [.ok r, .err e] ∧
    (toolRound exec hist [c1, c2]).reverse
      = hist.reverse
        ++ [assistantToolMsg [c1, c2],
            toolResultMsg c1 (.ok r), toolResultMsg c2 (.err e)] ∧
    (assistantToolMsg [c1, c2]).role = "assistant" ∧
    (assistantToolMsg [c1, c2]).content = .null ∧
    (assistantToolMsg [c1, c2]).toolCalls = [c1, c2] ∧
    (toolResultMsg c1 (.ok r)).role = "tool" ∧
    (toolResultMsg c2 (.err e)).role = "tool" ∧
    (toolResultMsg c1 (.ok r)).content = .str r ∧
    (toolResultMsg c2 (.err e)).content
      = .str ("\x7b\"error\": \"" ++ e ++ "\"\x7d") := by
  refine ⟨by simp [runTools, h1, h2], ?_, rfl, rfl, rfl, rfl, rfl, rfl, rfl⟩
  simp [toolRound, runTools, insertToolRound, h1, h2]

def c4ExHist : List Msg := [{ role := "user", content := .str "hi" }]

def c4ExCall1 : ToolCallDesc := ⟨"t1", "f1", "a1"⟩

def c4ExCall2 : ToolCallDesc := ⟨"t2", "f2", "a2"⟩

def c4ExExec : ToolCallDesc → ToolOutcome :=
  fun c => if c.id = "t1" then .ok "r1" else .err "boom"

def c4ExWire : List Msg := (toolRound c4ExExec c4ExHist [c4ExCall1, c4ExCall2]).reverse

/-- C4 counterexample: on the wire the older history comes first and the
tool results come last, so the claim's clause that the tool results
precede older history fails — the history message sits at index 0 while
the tool-role messages sit at indices 2 and 3. -/
theorem c4_counterexample :
    c4ExWire
      = [{ role := "user", content := .str "hi" },
         assistantToolMsg [c4ExCall1, c4ExCall2],
         toolResultMsg c4ExCall1 (.ok "r1"), toolResultMsg c4ExCall2 (.err "boom")] ∧
    (c4ExWire.get? 0).map Msg.role = some "user" ∧
    (c4ExWire.get? 2).map Msg.role = some "tool" ∧
    (c4ExWire.get? 3).map Msg.role = some "tool" ∧
    ¬ ((c4ExWire.get? 3).map Msg.role = some "user") := by
  refine ⟨by decide, by decide, by decide, by decide, by decide⟩

/-- Witness for C4's amended theorem at the concrete executor. -/
theorem c4_witness :
    c4ExExec c4ExCall1 = .ok "r1" ∧ c4ExExec c4ExCall2 = .err "boom" ∧
    runTools c4ExExec [c4ExCall1, c4ExCall2] = [.ok "r1", .err "boom"] :=
  ⟨by decide, by decide,
   (c4_tool_round_amended c4ExHist c4ExCall1 c4ExCall2 c4ExExec "r1" "boom"
     (by decide) (by decide)).1⟩

/-! ### C1 — context assembly length and order -/

lemma buildChain_eq_filterMap (au : Bool) (mt mi mm : Nat) :
    ∀ (nodes : List Node) (acc : List Msg),
      (∀ n ∈ nodes, (emitMsg au mt mi n).isSome = true) →
      acc.length + nodes.length ≤ mm →
      buildChain au mt mi mm nodes acc = acc ++ nodes.filterMap (emitMsg au mt mi)
  | [], acc, _, _ => by simp [buildChain]
  | n :: rest, acc, hsome, hlen => by
    have hlt : acc.length < mm := by
      simp only [List.length_cons] at hlen
      omega
    obtain ⟨m, hm⟩ := Option.isSome_iff_exists.mp (hsome n (by simp))
    unfold buildChain
    rw [if_pos hlt, hm]
    have hrest := buildChain_eq_filterMap au mt mi mm rest (acc ++ [m])
      (fun x hx => hsome x (by simp [hx]))
      (by simp only [List.length_append, List.length_cons, List.length_nil] at hlen ⊢; omega)
    simp only [Option.toList_some] at hrest ⊢
    rw [hrest, List.filterMap_cons, hm]
    simp

lemma filterMap_length_of_all_isSome {α β : Type} (f : α → Option β) :
    ∀ (l : List α), (∀ a ∈ l, (f a).isSome = true) → (l.filterMap f).length = l.length
  | [], _ => rfl
  | a :: l, h => by
    obtain ⟨b, hb⟩ := Option.isSome_iff_exists.mp (h a (by simp))
    rw [List.filterMap_cons, hb]
    simp only [List.length_cons]
    rw [filterMap_length_of_all_isSome f l (fun x hx => h x (by simp [hx]))]

/-- C1, amended: for every acyclic reply chain of length `L ≤ max_messages`
whose nodes each yield a non-empty message (non-empty truncated text or at
least one retained image), the walk of lines 310-394 assembles exactly
`min L max_messages = L` messages, and the list transmitted to the
provider (`messages[::-1]`, line 439) is the oldest-to-newest emission of
the chain.  (The original claim fails for chains containing a node whose
emitted content is empty — such nodes are skipped, see the
counterexample.) -/
theorem c1_context_assembly_amended (au : Bool) (mt mi mm : Nat)
    (nodes : List Node)
    (hlen : nodes.length ≤ mm)
    (hne : ∀ n ∈ nodes, (emitMsg au mt mi n).isSome = true) :
    (buildChain au mt mi mm nodes []).length = min nodes.length mm ∧
    transmittedChain au mt mi mm nodes
      = nodes.reverse.filterMap (emitMsg au mt mi) := by
  have hbuild := buildChain_eq_filterMap au mt mi mm nodes [] hne (by simpa using hlen)
  constructor
  · rw [hbuild]
    simp only [List.nil_append]
    rw [filterMap_length_of_all_isSome (emitMsg au mt mi) nodes hne]
    omega
  · unfold transmittedChain
    rw [hbuild]
    simp only [List.nil_append]
    rw [← List.filterMap_reverse]

def c1ExNode : Node := ⟨"", [], "user", none, none⟩

/-- C1 counterexample: a one-message chain whose leaf has empty resolved
text and no images (for example a message that is just the bot mention)
assembles to an empty message list, not to a list of length
`min 1 max_messages = 1`. -/
theorem c1_counterexample :
    buildChain false 10 5 50 [c1ExNode] [] = [] ∧
    (buildChain false 10 5 50 [c1ExNode] []).length ≠ min [c1ExNode].length 50 := by
  refine ⟨by decide, by decide⟩

def c1ExChain : List Node :=
  [⟨"pong", [], "assistant", none, none⟩, ⟨"ping", [], "user", some 7, some "alice"⟩]

/-- Witness for C1's amended theorem on a concrete two-message chain. -/
theorem c1_witness :
    c1ExChain.length ≤ 50 ∧
    (∀ n ∈ c1ExChain, (emitMsg true 10 5 n).isSome = true) ∧
    (buildChain true 10 5 50 c1ExChain []).length = min c1ExChain.length 50 :=
  ⟨by decide, by decide,
   (c1_context_assembly_amended true 10 5 50 c1ExChain (by decide) (by decide)).1⟩

/-! ### C5 — node store capacity and eviction -/

lemma evictStore_spec (s : Finset ℕ) :
    evictStore s ⊆ s ∧
    (evictStore s).card = min s.card MAX_MESSAGE_NODES ∧
    ∀ x ∈ s \ evictStore s, ∀ y ∈ evictStore s, x < y := by
  unfold evictStore
  by_cases hover : MAX_MESSAGE_NODES < s.card
  · rw [if_pos hover]
    set l := s.sort (· ≤ ·) with hl
    set k := s.card - MAX_MESSAGE_NODES with hk
    have hnodup : l.Nodup := s.sort_nodup (· ≤ ·)
    have hlen : l.length = s.card := s.length_sort (· ≤ ·)
    have htd : l.take k ++ l.drop k = l := List.take_append_drop k l
    have hdisj : Disjoint (l.take k).toFinset (l.drop k).toFinset := by
      rw [List.disjoint_toFinset_iff_disjoint]
      have := hnodup
      rw [← htd] at this
      exact List.disjoint_of_nodup_append this
    have hsl : s = (l.take k).toFinset ∪ (l.drop k).toFinset := by
      rw [← List.toFinset_append, htd, hl, Finset.sort_toFinset]
    have hres : s \ (l.take k).toFinset = (l.drop k).toFinset := by
      rw [hsl]
      exact Finset.union_sdiff_cancel_left hdisj
    rw [hres]
    refine ⟨?_, ?_, ?_⟩
    · intro x hx
      rw [List.mem_toFinset] at hx
      rw [hsl]
      simp [List.mem_toFinset]
      exact Or.inr hx
    · have hdnodup : (l.drop k).Nodup := hnodup.sublist (List.drop_sublist k l)
      rw [List.card_toFinset, hdnodup.dedup]
      rw [List.length_drop, hlen, hk]
      omega
    · intro x hx y hy
      have hxt : x ∈ l.take k := by
        rw [Finset.mem_sdiff] at hx
        obtain ⟨hxs, hxd⟩ := hx
        rw [hsl] at hxs
        rw [Finset.mem_union] at hxs
        rcases hxs with h | h
        · exact List.mem_toFinset.mp h
        · exact absurd (List.mem_toFinset.mp h) (fun hc => hxd (List.mem_toFinset.mpr hc))
      have hyd : y ∈ l.drop k := List.mem_toFinset.mp hy
      exact (s.sort_sorted_lt).rel_of_mem_take_of_mem_drop hxt hyd
  · rw [if_neg hover]
    refine ⟨Finset.Subset.refl s, ?_, ?_⟩
    · omega
    · intro x hx
      rw [Finset.sdiff_self] at hx
      exact absurd hx (Finset.not_mem_empty x)

/-- C5: after an `on_message` turn (a batch of `msg_nodes` insertions
followed by the eviction pass of lines 676-680) the Node Store holds at
most `MAX_MESSAGE_NODES = 2000` nodes, its keys are a subset of the keys
present before eviction, exactly `min card 2000` of them survive, and
every evicted id is numerically smaller than every surviving id — the
survivors are exactly the highest-N identifiers. -/
theorem c5_node_store_capacity (s newIds : Finset ℕ) :
    (nodeStoreTurn s newIds).card ≤ MAX_MESSAGE_NODES ∧
    nodeStoreTurn s newIds ⊆ s ∪ newIds ∧
    (nodeStoreTurn s newIds).card = min (s ∪ newIds).card MAX_MESSAGE_NODES ∧
    ∀ x ∈ (s ∪ newIds) \ nodeStoreTurn s newIds, ∀ y ∈ nodeStoreTurn s newIds, x < y := by
  obtain ⟨h1, h2, h3⟩ := evictStore_spec (s ∪ newIds)
  unfold nodeStoreTurn
  exact ⟨by rw [h2]; exact min_le_right _ _, h1, h2, h3⟩

/-! ### Stream dispatcher lemmas (shared by C2 and C9) -/

lemma sjoin_concat (l : List String) (s : String) :
    String.join (l ++ [s]) = String.join l ++ s := by
  simp only [String.join, List.foldl_append, List.foldl_cons, List.foldl_nil]

lemma join_appendToLast (l : List String) (s : String) :
    String.join (appendToLast l s) = String.join l ++ s := by
  match l with
  | [] =>
    simp [appendToLast, String.join]
  | a :: l' =>
    have hne : a :: l' ≠ [] := by simp
    unfold appendToLast
    rw [List.getLast?_eq_getLast _ hne]
    simp only [Option.getD_some]
    rw [sjoin_concat, ← String.append_assoc]
    congr 1
    conv_rhs => rw [← List.dropLast_append_getLast hne, sjoin_concat]

lemma join_startSegment (b : Bool) (l : List String) :
    String.join (if b then l ++ [""] else l) = String.join l := by
  cases b
  · rfl
  · simp only [if_true, sjoin_concat, String.append_empty]

/-- The text appended to `response_contents` during the iteration that
processes `ev` from state `st` (lines 501-504): the previous event's
delta, plus the terminal event's own delta when `ev` carries the finish
reason. -/
def chunkOf (st : StreamState) (ev : Event) : String :=
  if ev.finish = none then st.currContent.getD ""
  else st.currContent.getD "" ++ ev.delta.getD ""

lemma streamStep_skip (maxLen : Nat) (st : StreamState) (ev : Event)
    (h : st.finishReason ≠ none) : streamStep maxLen st ev = st := by
  unfold streamStep
  rw [if_pos h]

lemma foldl_stream_stopped (maxLen : Nat) :
    ∀ (post : List Event) (st : StreamState), st.finishReason ≠ none →
      post.foldl (streamStep maxLen) st = st
  | [], _, _ => rfl
  | e :: post, st, h => by
    rw [List.foldl_cons, streamStep_skip maxLen st e h,
      foldl_stream_stopped maxLen post st h]

lemma sfoldl_shift : ∀ (l : List String) (a : String),
    l.foldl (· ++ ·) a = a ++ l.foldl (· ++ ·) ""
  | [], a => by simp [String.append_empty]
  | x :: l, a => by
    simp only [List.foldl_cons]
    rw [sfoldl_shift l (a ++ x), sfoldl_shift l (("" : String) ++ x),
      String.empty_append, String.append_assoc]

lemma sjoin_cons (s : String) (l : List String) :
    String.join (s :: l) = s ++ String.join l := by
  simp only [String.join, List.foldl_cons]
  rw [sfoldl_shift l (("" : String) ++ s), String.empty_append]

lemma streamStep_nonterminal (maxLen : Nat) (st : StreamState) (ev : Event)
    (h : st.finishReason = none) (hev : ev.finish = none) :
    (streamStep maxLen st ev).finishReason = none ∧
    (streamStep maxLen st ev).currContent = some (ev.delta.getD "") ∧
    String.join (streamStep maxLen st ev).responseContents
      = String.join st.responseContents ++ st.currContent.getD "" := by
  unfold streamStep
  rw [if_neg (by simp [h]), hev]
  simp only [reduceIte]
  by_cases hguard : st.responseContents = [] ∧ st.currContent.getD "" = ""
  · rw [if_pos hguard]
    obtain ⟨hrc, hcur⟩ := hguard
    refine ⟨rfl, rfl, ?_⟩
    rw [hrc, hcur, String.append_empty]
  · rw [if_neg hguard]
    exact ⟨rfl, rfl, by rw [join_appendToLast, join_startSegment]⟩

lemma streamStep_terminal (maxLen : Nat) (st : StreamState) (ev : Event)
    (h : st.finishReason = none) (hev : ev.finish ≠ none) :
    (streamStep maxLen st ev).finishReason = ev.finish ∧
    String.join (streamStep maxLen st ev).responseContents
      = String.join st.responseContents ++ st.currContent.getD ""
        ++ ev.delta.getD "" := by
  cases hf : ev.finish with
  | none => exact absurd hf hev
  | some r =>
    unfold streamStep
    rw [if_neg (by simp [h]), hf]
    simp only [if_neg (Option.some_ne_none r)]
    by_cases hguard : st.responseContents = [] ∧
        st.currContent.getD "" ++ ev.delta.getD "" = ""
    · rw [if_pos hguard]
      obtain ⟨hrc, hnew⟩ := hguard
      refine ⟨rfl, ?_⟩
      rw [hrc]
      show ("" : String) = "" ++ st.currContent.getD "" ++ ev.delta.getD ""
      rw [String.empty_append, hnew]
    · rw [if_neg hguard]
      refine ⟨rfl, ?_⟩
      rw [join_appendToLast, join_startSegment, String.append_assoc]

/-- Folding the stream over a run of non-terminal events keeps
`finish_reason` unset and accumulates exactly the deltas (one event
deferred in `curr_content`). -/
lemma foldl_stream_pre (maxLen : Nat) :
    ∀ (pre : List Event) (st : StreamState), st.finishReason = none →
      (∀ e ∈ pre, e.finish = none) →
      (pre.foldl (streamStep maxLen) st).finishReason = none ∧
      String.join (pre.foldl (streamStep maxLen) st).responseContents
          ++ ((pre.foldl (streamStep maxLen) st).currContent.getD "")
        = String.join st.responseContents ++ st.currContent.getD ""
            ++ String.join (pre.map fun e => e.delta.getD "")
  | [], st, h, _ => by
    refine ⟨h, ?_⟩
    simp only [List.foldl_nil, List.map_nil]
    rw [show String.join ([] : List String) = "" from rfl, String.append_empty]
  | e :: pre, st, h, hpre => by
    have he : e.finish = none := hpre e (by simp)
    obtain ⟨h1, h2, h3⟩ := streamStep_nonterminal maxLen st e h he
    rw [List.foldl_cons]
    obtain ⟨ih1, ih2⟩ := foldl_stream_pre maxLen pre (streamStep maxLen st e) h1
      (fun x hx => hpre x (by simp [hx]))
    refine ⟨ih1, ?_⟩
    rw [ih2, h3, h2]
    simp only [Option.getD_some, List.map_cons]
    rw [sjoin_cons, ← String.append_assoc]

/-- C9: for a completion event sequence with exactly one terminal event,
the concatenation of all produced segments equals the concatenation of
the text deltas of all events up to and including the terminal event —
the one-event-deferred buffering of lines 501-512 neither loses nor
duplicates streamed text, and events after the terminal one contribute
nothing. -/
theorem c9_stream_text_conservation (maxLen : Nat) (pre post : List Event) (t : Event)
    (hpre : ∀ e ∈ pre, e.finish = none)
    (ht : t.finish ≠ none)
    (hpost : ∀ e ∈ post, e.finish = none) :
    String.join (runStream maxLen (pre ++ t :: post)).responseContents
      = String.join ((pre ++ [t]).map fun e => e.delta.getD "") := by
  unfold runStream
  rw [List.foldl_append, List.foldl_cons]
  obtain ⟨h1, h2⟩ := foldl_stream_pre maxLen pre ⟨none, none, []⟩ rfl hpre
  set st1 := pre.foldl (streamStep maxLen) ⟨none, none, []⟩ with hst1
  obtain ⟨g1, g2⟩ := streamStep_terminal maxLen st1 t h1 ht
  rw [foldl_stream_stopped maxLen post _ (by rw [g1]; exact ht)]
  rw [g2, h2]
  show ("" : String) ++ "" ++ String.join (pre.map fun e => e.delta.getD "")
      ++ t.delta.getD "" = _
  rw [String.empty_append, String.empty_append, List.map_append]
  simp only [List.map_cons, List.map_nil]
  rw [sjoin_concat]

/-! ### C2 — stream segmentation at the length boundary -/

def c2ExEvents : List Event := [⟨some "abc", none⟩, ⟨some "A", some "stop"⟩]

/-- C2 counterexample: with maximum length 3, the stream delivering
"abc" and then a terminal event with delta "A" has cumulative length
4 = max + 1, yet produces a single segment "abcA" of length 4 — not two
segments with the first at the limit.  (The split rule moves the whole
appended text to the new segment, so the first segment is exactly at the
limit only for partitions whose chunk boundaries land there.) -/
theorem c2_counterexample :
    ((c2ExEvents.map fun e => (e.delta.getD "").length).sum = 3 + 1) ∧
    (runStream 3 c2ExEvents).responseContents = ["abcA"] ∧
    ¬ ((runStream 3 c2ExEvents).responseContents.length = 2 ∧
       ((runStream 3 c2ExEvents).responseContents.headD "").length = 3) := by
  refine ⟨by decide, by decide, by decide⟩

def charEvent (c : Char) : Event := ⟨some (String.mk [c]), none⟩

def termEvent (reason : String) : Event := ⟨none, some reason⟩

lemma appendToLast_concat_empty (l : List String) (s : String) :
    appendToLast (l ++ [""]) s = l ++ [s] := by
  unfold appendToLast
  have hne : l ++ [("" : String)] ≠ [] := by simp
  match hm : l ++ [("" : String)] with
  | [] => exact absurd hm hne
  | a :: l' =>
    rw [← hm, List.getLast?_concat, List.dropLast_concat]
    simp only [Option.getD_some]
    rw [String.empty_append]

lemma charFold_run (maxLen : Nat) :
    ∀ (ds : List Char) (buf : List Char) (cur : Char),
      buf ≠ [] → buf.length + ds.length ≤ maxLen →
      (ds.map charEvent).foldl (streamStep maxLen)
          ⟨some (String.mk [cur]), none, [String.mk buf]⟩
        = ⟨some (String.mk [ds.getLastD cur]), none,
           [String.mk (buf ++ (cur :: ds).dropLast)]⟩
  | [], buf, cur, _, _ => by
    simp [List.getLastD]
  | d :: ds, buf, cur, hbuf, hlen => by
    rw [List.map_cons, List.foldl_cons]
    have hfit : ¬ (maxLen < (String.mk buf ++ String.mk [cur]).length) := by
      have hl : (String.mk buf ++ String.mk [cur]).length = buf.length + 1 := by
        show (String.mk (buf ++ [cur])).length = buf.length + 1
        rw [String.length_mk, List.length_append, List.length_cons, List.length_nil]
      rw [hl]
      simp only [List.length_cons] at hlen
      omega
    have hsn : decide (maxLen < (String.mk buf ++ String.mk [cur]).length) = false :=
      decide_eq_false hfit
    have hstep : streamStep maxLen ⟨some (String.mk [cur]), none, [String.mk buf]⟩
        (charEvent d) = ⟨some (String.mk [d]), none, [String.mk (buf ++ [cur])]⟩ := by
      unfold streamStep charEvent
      rw [if_neg (by simp)]
      simp only [Option.getD_some, reduceIte, List.getLast?_singleton, hsn,
        Bool.false_eq_true, if_false]
      rfl
    rw [hstep,
      charFold_run maxLen ds (buf ++ [cur]) d (by simp)
        (by simp only [List.length_append, List.length_cons, List.length_nil] at hlen ⊢; omega)]
    rw [List.getLastD_cons]
    have hdrop : (cur :: d :: ds).dropLast = cur :: (d :: ds).dropLast := rfl
    rw [hdrop, List.append_assoc]
    rfl

lemma drop_length_cons {α : Type} :
    ∀ (l : List α) (a : α), (a :: l).drop l.length = [l.getLastD a]
  | [], a => rfl
  | b :: l', a => by
    rw [List.length_cons, List.getLastD_cons]
    show (b :: l').drop l'.length = [l'.getLastD b]
    exact drop_length_cons l' b

/-- C2, amended: (i) when the cumulative streamed text exceeds the
maximum message length by exactly one character and arrives as
single-character deltas with the terminal event carrying no text, the
dispatcher of lines 501-512 produces exactly two segments, the first of
length exactly the maximum; and (ii) in general a new segment starts
whenever appending the iteration's text would exceed the maximum, with
the entire appended text placed into the new segment.  (As stated the
claim is false: for other delta partitions the first segment can end
short of the limit or a single oversized chunk can exceed it — see the
counterexample.) -/
theorem c2_stream_segmentation_amended (maxLen : Nat) (cs : List Char)
    (reason : String) (st : StreamState) (ev : Event)
    (hpos : 0 < maxLen) (hcs : cs.length = maxLen + 1)
    (hfin : st.finishReason = none) (hrc : st.responseContents ≠ [])
    (hover : maxLen < ((st.responseContents.getLast?.getD "") ++ chunkOf st ev).length) :
    (runStream maxLen ((cs.map charEvent) ++ [termEvent reason])).responseContents
        = [String.mk (cs.take maxLen), String.mk (cs.drop maxLen)] ∧
    (String.mk (cs.take maxLen)).length = maxLen ∧
    (streamStep maxLen st ev).responseContents
        = st.responseContents ++ [chunkOf st ev] := by
  refine ⟨?_, ?_, ?_⟩
  · obtain - | ⟨c1, - | ⟨c2, rest⟩⟩ := cs
    · simp only [List.length_nil] at hcs
      omega
    · simp only [List.length_cons, List.length_nil] at hcs
      omega
    · have hrest : rest.length = maxLen - 1 := by
        simp only [List.length_cons] at hcs
        omega
      have hstep1 : streamStep maxLen ⟨none, none, []⟩ (charEvent c1)
          = ⟨some (String.mk [c1]), none, []⟩ := rfl
      have hstep2 : streamStep maxLen ⟨some (String.mk [c1]), none, []⟩ (charEvent c2)
          = ⟨some (String.mk [c2]), none, [String.mk [c1]]⟩ := rfl
      have hinner : ((c1 :: c2 :: rest).map charEvent).foldl (streamStep maxLen)
            ⟨none, none, []⟩
          = ⟨some (String.mk [rest.getLastD c2]), none,
             [String.mk ([c1] ++ (c2 :: rest).dropLast)]⟩ := by
        rw [List.map_cons, List.map_cons, List.foldl_cons, hstep1, List.foldl_cons,
          hstep2, charFold_run maxLen rest [c1] c2 (by simp)
            (by simp only [List.length_cons, List.length_nil]; omega)]
      have hSlen : (String.mk ([c1] ++ (c2 :: rest).dropLast)).length = maxLen := by
        rw [String.length_mk]
        simp only [List.length_append, List.length_cons, List.length_nil,
          List.length_dropLast]
        omega
      have hsn3 : decide (maxLen < ((String.mk ([c1] ++ (c2 :: rest).dropLast))
          ++ String.mk [rest.getLastD c2]).length) = true := by
        apply decide_eq_true
        rw [String.length_append, hSlen, String.length_mk, List.length_cons,
          List.length_nil]
        omega
      have hterm : streamStep maxLen
            ⟨some (String.mk [rest.getLastD c2]), none,
             [String.mk ([c1] ++ (c2 :: rest).dropLast)]⟩ (termEvent reason)
          = ⟨some "", some reason,
             [String.mk ([c1] ++ (c2 :: rest).dropLast),
              String.mk [rest.getLastD c2]]⟩ := by
        unfold streamStep termEvent
        rw [if_neg (by simp)]
        simp only [if_neg (Option.some_ne_none reason), Option.getD_some,
          Option.getD_none, String.append_empty, List.getLast?_singleton]
        rw [if_neg (by simp), hsn3]
        simp only [eq_self_iff_true, if_true]
        rw [appendToLast_concat_empty]
        rfl
      unfold runStream
      rw [List.foldl_append, hinner, List.foldl_cons, hterm, List.foldl_nil]
      have h1 : [c1] ++ (c2 :: rest).dropLast = (c1 :: c2 :: rest).take maxLen := by
        have hdt : (c1 :: c2 :: rest).dropLast = (c1 :: c2 :: rest).take maxLen := by
          rw [List.dropLast_eq_take]
          congr 1
          simp only [List.length_cons] at hcs ⊢
          omega
        rw [← hdt]
        rfl
      have h2 : (c1 :: c2 :: rest).drop maxLen = [rest.getLastD c2] := by
        have hm : maxLen = (c2 :: rest).length := by
          simp only [List.length_cons] at hcs ⊢
          omega
        rw [hm, drop_length_cons (c2 :: rest) c1, List.getLastD_cons]
      rw [h1, ← h2]
  · rw [String.length_mk, List.length_take]
    omega
  · have hlast : st.responseContents.getLast? = some (st.responseContents.getLast hrc) :=
      List.getLast?_eq_getLast _ hrc
    have hd : decide (maxLen <
        ((st.responseContents.getLast hrc) ++ chunkOf st ev).length) = true := by
      apply decide_eq_true
      rw [hlast] at hover
      simpa using hover
    cases hf : ev.finish with
    | none =>
      have hchunk : chunkOf st ev = st.currContent.getD "" := by
        unfold chunkOf
        rw [hf]
        simp only [reduceIte]
      unfold streamStep
      rw [if_neg (by simp [hfin]), hf]
      simp only [reduceIte]
      rw [if_neg (fun hg => hrc hg.1), hlast]
      rw [hchunk] at hd
      show appendToLast
          (if (decide (maxLen < ((st.responseContents.getLast hrc)
              ++ st.currContent.getD "").length)) = true
           then st.responseContents ++ [""] else st.responseContents)
          (st.currContent.getD "")
        = st.responseContents ++ [chunkOf st ev]
      rw [hd, if_pos (Eq.refl true), appendToLast_concat_empty, hchunk]
    | some r =>
      have hchunk : chunkOf st ev = st.currContent.getD "" ++ ev.delta.getD "" := by
        unfold chunkOf
        rw [hf]
        simp only [if_neg (Option.some_ne_none r)]
      unfold streamStep
      rw [if_neg (by simp [hfin]), hf]
      simp only [if_neg (Option.some_ne_none r)]
      rw [if_neg (fun hg => hrc hg.1), hlast]
      rw [hchunk] at hd
      show appendToLast
          (if (decide (maxLen < ((st.responseContents.getLast hrc)
              ++ (st.currContent.getD "" ++ ev.delta.getD "")).length)) = true
           then st.responseContents ++ [""] else st.responseContents)
          (st.currContent.getD "" ++ ev.delta.getD "")
        = st.responseContents ++ [chunkOf st ev]
      rw [hd, if_pos (Eq.refl true), appendToLast_concat_empty, hchunk]

/-- Witness for C2's amended theorem: max length 3, the five-character
stream "a","b","c","d" followed by an empty terminal delta yields
segments "abc" and "d". -/
theorem c2_witness :
    (0 < 3) ∧ ("abcd".toList.length = 3 + 1) ∧
    (runStream 3 (("abcd".toList.map charEvent) ++ [termEvent "stop"])).responseContents
      = [String.mk ("abcd".toList.take 3), String.mk ("abcd".toList.drop 3)] :=
  ⟨by decide, by decide,
   (c2_stream_segmentation_amended 3 "abcd".toList "stop"
     ⟨some "d", none, ["abc"]⟩ ⟨none, some "stop"⟩
     (by decide) (by decide) (by decide) (by decide) (by decide)).1⟩

/-- Witness for C9 at a concrete stream: "He" + terminal "llo" with a
trailing ignored event, joining to "Hello". -/
theorem c9_witness :
    String.join (runStream 6
        ([⟨some "He", none⟩] ++ (⟨some "llo", some "stop"⟩ : Event)
          :: [⟨some "XX", none⟩])).responseContents
      = String.join ((([⟨some "He", none⟩] ++ [⟨some "llo", some "stop"⟩]) :
          List Event).map fun e => e.delta.getD "") :=
  c9_stream_text_conservation 6 [⟨some "He", none⟩] [⟨some "XX", none⟩]
    ⟨some "llo", some "stop"⟩ (by decide) (by decide) (by decide)

/-! ### C3 — cache-candidate priority direction (code bug) -/

def c3ExMsgs : List Msg :=
  [{ role := "user", content := .str "newer" }, { role := "user", content := .str "older" }]

/-- C3: the priority formula of `apply_anthropic_cache_control` line 135
is applied to the internal, still newest-first message list (the reversal
to oldest-first happens only at transmission, line 439), so the NEWEST
conversation message gets the best conversation priority 1 and older
messages get successively worse priorities — the opposite of the claim,
of spec §4.2 and of the code's own comments (lines 113, 134, 144
"prioritize older messages").  At the failing input (internal list
[newer, older], both qualifying) the sorted candidate order puts the
newer message first. -/
theorem c3_priority_direction_bug :
    sortedCandidates 5 c3ExMsgs
      = [⟨0, 0, 5, 1, "user"⟩, ⟨1, 0, 5, 2, "user"⟩] ∧
    (sortedCandidates 5 c3ExMsgs).head?.map (fun c => c.msgIdx) = some 0 ∧
    ((sortedCandidates 5 c3ExMsgs).map fun c => c.priority) = [1, 2] := by
  refine ⟨by decide, by decide, by decide⟩

/-! ### C8 — at most 4 breakpoints; long system message always marked -/

lemma sum_map_modifyIdx_le {α : Type} (g : α → Nat) (f : α → α)
    (hf : ∀ a, g (f a) ≤ g a + 1) :
    ∀ (l : List α) (i : Nat), ((modifyIdx l i f).map g).sum ≤ (l.map g).sum + 1
  | [], _ => by simp [modifyIdx]
  | a :: l, 0 => by
    simp only [modifyIdx, List.map_cons, List.sum_cons]
    have := hf a
    omega
  | a :: l, i + 1 => by
    simp only [modifyIdx, List.map_cons, List.sum_cons]
    have := sum_map_modifyIdx_le g f hf l i
    omega

lemma markCount_markMsg_le (ms : List Msg) (i j : Nat) :
    markCount (markMsg ms i j) ≤ markCount ms + 1 := by
  unfold markCount markMsg
  apply sum_map_modifyIdx_le
  intro m
  match hm : m.content with
  | .parts ps =>
    simp only [hm, msgMarkCount]
    apply sum_map_modifyIdx_le
    intro p
    match p with
    | .text t cc => simp [partMark]
    | .image u => simp [partMark]
  | .str sx => simp [hm, msgMarkCount]
  | .null => simp [hm, msgMarkCount]

lemma markCount_foldl_le :
    ∀ (cs : List CacheCandidate) (ms : List Msg),
      markCount (cs.foldl (fun acc c => markMsg acc c.msgIdx c.contentIdx) ms)
        ≤ markCount ms + cs.length
  | [], ms => by simp
  | c :: cs, ms => by
    rw [List.foldl_cons]
    have h1 := markCount_markMsg_le ms c.msgIdx c.contentIdx
    have h2 := markCount_foldl_le cs (markMsg ms c.msgIdx c.contentIdx)
    simp only [List.length_cons]
    omega

lemma msgMarkCount_toMultipart (m : Msg) :
    msgMarkCount (toMultipart m) = msgMarkCount m := by
  unfold toMultipart msgMarkCount
  match hm : m.content with
  | .str sx => simp [hm, partMark]
  | .parts ps => simp [hm]
  | .null => simp [hm]

lemma markCount_map_toMultipart (msgs : List Msg)
    (h : ∀ m ∈ msgs, msgMarkCount m = 0) :
    markCount (msgs.map toMultipart) = 0 := by
  unfold markCount
  rw [List.map_map]
  apply List.sum_eq_zero
  intro x hx
  rw [List.mem_map] at hx
  obtain ⟨m, hm, rfl⟩ := hx
  rw [Function.comp_apply, msgMarkCount_toMultipart]
  exact h m hm

lemma candLe_trans : ∀ x y z : CacheCandidate,
    candLe x y = true → candLe y z = true → candLe x z = true := by
  intro x y z hxy hyz
  simp only [candLe, Bool.or_eq_true, Bool.and_eq_true, decide_eq_true_eq,
    beq_iff_eq] at hxy hyz ⊢
  omega

lemma candLe_total : ∀ x y : CacheCandidate,
    candLe x y = true ∨ candLe y x = true := by
  intro x y
  simp only [candLe, Bool.or_eq_true, Bool.and_eq_true, decide_eq_true_eq,
    beq_iff_eq]
  omega

lemma stableSort_unique_min_head {α : Type} [DecidableEq α] (le : α → α → Bool)
    (htrans : ∀ x y z, le x y = true → le y z = true → le x z = true)
    (htotal : ∀ x y, le x y = true ∨ le y x = true) (l : List α) (c : α)
    (hc : c ∈ l) (hcount : l.count c = 1)
    (hmin : ∀ x ∈ l, le x c = true → x = c) :
    ∃ t, stableSort le l = c :: t ∧ c ∉ t ∧ ∀ x ∈ t, x ∈ l := by
  have hperm := stableSort_perm le l
  have hsort := sorted_stableSort le htrans htotal l
  have hcm : c ∈ stableSort le l := hperm.mem_iff.mpr hc
  match hm : stableSort le l with
  | [] =>
    rw [hm] at hcm
    cases hcm
  | y :: t =>
    rw [hm] at hperm hsort hcm
    have hy : y = c := by
      rcases List.mem_cons.mp hcm with h | h
      · exact h.symm
      · have hyl : y ∈ l := hperm.mem_iff.mp (List.mem_cons_self y t)
        rw [List.pairwise_cons] at hsort
        exact hmin y hyl (hsort.1 c h)
    subst hy
    refine ⟨t, rfl, ?_, ?_⟩
    · have hce := hperm.count_eq y
      rw [List.count_cons_self, hcount] at hce
      have hzero : t.count y = 0 := by omega
      exact fun hct => by
        rw [List.count_eq_zero] at hzero
        exact hzero hct
    · intro x hx
      exact hperm.mem_iff.mp (List.mem_cons_of_mem y hx)

lemma modifyIdx_get?_ne {α : Type} :
    ∀ (l : List α) (i k : Nat) (f : α → α), i ≠ k →
      (modifyIdx l i f).get? k = l.get? k
  | [], _, _, _, _ => rfl
  | a :: l, 0, 0, f, h => absurd rfl h
  | a :: l, 0, k + 1, f, h => rfl
  | a :: l, i + 1, 0, f, h => rfl
  | a :: l, i + 1, k + 1, f, h =>
    modifyIdx_get?_ne l i k f (fun hik => h (by rw [hik]))

lemma markedAt_markMsg_ne (ms : List Msg) (i j k jj : Nat) (h : i ≠ k) :
    markedAt (markMsg ms i j) k jj = markedAt ms k jj := by
  unfold markedAt markMsg
  rw [modifyIdx_get?_ne ms i k _ h]

lemma markedAt_foldl_preserve :
    ∀ (cs : List CacheCandidate) (ms : List Msg) (k jj : Nat),
      (∀ c ∈ cs, c.msgIdx ≠ k) →
      markedAt (cs.foldl (fun acc c => markMsg acc c.msgIdx c.contentIdx) ms) k jj
        = markedAt ms k jj
  | [], ms, k, jj, _ => rfl
  | c :: cs, ms, k, jj, h => by
    rw [List.foldl_cons,
      markedAt_foldl_preserve cs _ k jj (fun x hx => h x (List.mem_cons_of_mem c hx)),
      markedAt_markMsg_ne ms c.msgIdx c.contentIdx k jj (h c (List.mem_cons_self c cs))]

/-- C8: the Cache Breakpoint Selector marks at most `MAX_BREAKPOINTS = 4`
parts in every input whose parts are initially unmarked; and for one
system message of qualifying length together with five qualifying user
messages (in the internal order produced by `on_message`: users first,
system appended last), the system message's text segment is always among
the marked set. -/
theorem c8_breakpoint_budget_and_system (minLen : Nat) (msgs : List Msg)
    (hmz : ∀ m ∈ msgs, msgMarkCount m = 0)
    (s u1 u2 u3 u4 u5 : String)
    (hs : minLen ≤ s.length) (h1 : minLen ≤ u1.length) (h2 : minLen ≤ u2.length)
    (h3 : minLen ≤ u3.length) (h4 : minLen ≤ u4.length) (h5 : minLen ≤ u5.length) :
    markCount (applyAnthropicCacheControl minLen msgs) ≤ 4 ∧
    markedAt (applyAnthropicCacheControl minLen
      [{ role := "user", content := .str u1 }, { role := "user", content := .str u2 },
       { role := "user", content := .str u3 }, { role := "user", content := .str u4 },
       { role := "user", content := .str u5 }, { role := "system", content := .str s }])
      5 0 = true := by
  constructor
  · simp only [applyAnthropicCacheControl]
    have h0 := markCount_map_toMultipart msgs hmz
    have hfold := markCount_foldl_le
      ((stableSort candLe (cacheCandidates minLen (msgs.map toMultipart))).take 4)
      (msgs.map toMultipart)
    have hlen : ((stableSort candLe
        (cacheCandidates minLen (msgs.map toMultipart))).take 4).length ≤ 4 := by
      rw [List.length_take]
      exact min_le_left _ _
    omega
  · have hcands : cacheCandidates minLen
        (([{ role := "user", content := .str u1 }, { role := "user", content := .str u2 },
           { role := "user", content := .str u3 }, { role := "user", content := .str u4 },
           { role := "user", content := .str u5 },
           { role := "system", content := .str s }] : List Msg).map toMultipart)
        = [⟨0, 0, u1.length, 1, "user"⟩, ⟨1, 0, u2.length, 2, "user"⟩,
           ⟨2, 0, u3.length, 3, "user"⟩, ⟨3, 0, u4.length, 4, "user"⟩,
           ⟨4, 0, u5.length, 5, "user"⟩, ⟨5, 0, s.length, 0, "system"⟩] := by
      simp only [List.map_cons, List.map_nil, toMultipart]
      simp [cacheCandidates, msgCandidates, List.enum, List.enumFrom, hs, h1, h2, h3,
        h4, h5, (show ("user" : String) ≠ "system" by decide)]
    obtain ⟨t, hsorted, hnotin, hmem⟩ :=
      stableSort_unique_min_head candLe candLe_trans candLe_total
        (cacheCandidates minLen
          (([{ role := "user", content := .str u1 }, { role := "user", content := .str u2 },
             { role := "user", content := .str u3 }, { role := "user", content := .str u4 },
             { role := "user", content := .str u5 },
             { role := "system", content := .str s }] : List Msg).map toMultipart))
        ⟨5, 0, s.length, 0, "system"⟩
        (by rw [hcands]; simp)
        (by
          rw [hcands]
          simp [List.count_cons, List.count_nil])
        (by
          rw [hcands]
          intro x hx hle
          rcases (by simpa using hx :
              x = (⟨0, 0, u1.length, 1, "user"⟩ : CacheCandidate) ∨
              x = (⟨1, 0, u2.length, 2, "user"⟩ : CacheCandidate) ∨
              x = (⟨2, 0, u3.length, 3, "user"⟩ : CacheCandidate) ∨
              x = (⟨3, 0, u4.length, 4, "user"⟩ : CacheCandidate) ∨
              x = (⟨4, 0, u5.length, 5, "user"⟩ : CacheCandidate) ∨
              x = (⟨5, 0, s.length, 0, "system"⟩ : CacheCandidate)) with
            rfl | rfl | rfl | rfl | rfl | rfl
          · cases hle
          · cases hle
          · cases hle
          · cases hle
          · cases hle
          · rfl)
    simp only [applyAnthropicCacheControl]
    rw [hcands] at hsorted
    rw [hcands, hsorted]
    rw [show ((⟨5, 0, s.length, 0, "system"⟩ : CacheCandidate) :: t).take 4
        = ⟨5, 0, s.length, 0, "system"⟩ :: t.take 3 from rfl]
    rw [List.foldl_cons]
    rw [markedAt_foldl_preserve (t.take 3) _ 5 0 ?_]
    · rfl
    · intro c hct
      have hcin : c ∈ t := List.mem_of_mem_take hct
      have hcl := hmem c hcin
      rw [hcands] at hcl
      have hne : c ≠ (⟨5, 0, s.length, 0, "system"⟩ : CacheCandidate) :=
        fun he => hnotin (he ▸ hcin)
      rcases (by simpa using hcl :
          c = (⟨0, 0, u1.length, 1, "user"⟩ : CacheCandidate) ∨
          c = (⟨1, 0, u2.length, 2, "user"⟩ : CacheCandidate) ∨
          c = (⟨2, 0, u3.length, 3, "user"⟩ : CacheCandidate) ∨
          c = (⟨3, 0, u4.length, 4, "user"⟩ : CacheCandidate) ∨
          c = (⟨4, 0, u5.length, 5, "user"⟩ : CacheCandidate) ∨
          c = (⟨5, 0, s.length, 0, "system"⟩ : CacheCandidate)) with
        rfl | rfl | rfl | rfl | rfl | rfl
      · simp
      · simp
      · simp
      · simp
      · simp
      · exact absurd rfl hne

/-! ### C6 — prompt-cache two-phase eviction -/

lemma lruLe_trans : ∀ x y z : CacheEntry,
    decide (x.lastAccessed ≤ y.lastAccessed) = true →
    decide (y.lastAccessed ≤ z.lastAccessed) = true →
    decide (x.lastAccessed ≤ z.lastAccessed) = true := by
  intro x y z hxy hyz
  simp only [decide_eq_true_eq] at hxy hyz ⊢
  omega

lemma lruLe_total : ∀ x y : CacheEntry,
    decide (x.lastAccessed ≤ y.lastAccessed) = true ∨
    decide (y.lastAccessed ≤ x.lastAccessed) = true := by
  intro x y
  simp only [decide_eq_true_eq]
  omega

/-- C6: `_evict_old_entries` is two-phase.  Phase 1 removes every entry
whose age exceeds the TTL regardless of hits or recency, incrementing
`evictions_ttl` once per removal; phase 2 runs only if the cache is still
over capacity and removes least-recently-accessed entries until size
equals capacity, incrementing `evictions_lru` once per removal; afterwards
the cache size is at most the capacity.  (Hashes are dict keys, hence
assumed distinct.) -/
theorem c6_two_phase_eviction (now : Int) (st : CacheState)
    (hnd : (st.cache.map fun e => e.hash).Nodup) :
    (∀ e ∈ st.cache, st.ttlSeconds < now - e.timestamp →
      e ∉ (evictOldEntries now st).cache) ∧
    (evictOldEntries now st).statEvictTtl
      = st.statEvictTtl
        + (st.cache.filter fun e => st.ttlSeconds < now - e.timestamp).length ∧
    (evictOldEntries now st).statEvictLru
      = st.statEvictLru
        + ((st.cache.filter fun e => ¬ st.ttlSeconds < now - e.timestamp).length
            - min (st.cache.filter fun e => ¬ st.ttlSeconds < now - e.timestamp).length
                st.maxCacheSize) ∧
    (evictOldEntries now st).cache.length
      = min (st.cache.filter fun e => ¬ st.ttlSeconds < now - e.timestamp).length
          st.maxCacheSize ∧
    (evictOldEntries now st).cache.length ≤ st.maxCacheSize ∧
    (∀ e ∈ st.cache.filter fun e => ¬ st.ttlSeconds < now - e.timestamp,
      e ∉ (evictOldEntries now st).cache →
        ∀ f ∈ (evictOldEntries now st).cache, e.lastAccessed ≤ f.lastAccessed) := by
  by_cases hover : st.maxCacheSize
      < (st.cache.filter fun e => ¬ st.ttlSeconds < now - e.timestamp).length
  · have hres : evictOldEntries now st
        = { st with
            cache := (st.cache.filter fun e => ¬ st.ttlSeconds < now - e.timestamp).filter
              fun e => ¬ (((stableSort (fun a b => a.lastAccessed ≤ b.lastAccessed)
                  (st.cache.filter fun e => ¬ st.ttlSeconds < now - e.timestamp)).take
                    ((st.cache.filter fun e => ¬ st.ttlSeconds < now - e.timestamp).length
                      - st.maxCacheSize)).map fun e => e.hash).contains e.hash
            statEvictTtl := st.statEvictTtl
              + (st.cache.filter fun e => st.ttlSeconds < now - e.timestamp).length
            statEvictLru := st.statEvictLru
              + ((st.cache.filter fun e => ¬ st.ttlSeconds < now - e.timestamp).length
                  - st.maxCacheSize) } := by
      simp only [evictOldEntries]
      rw [if_pos hover]
    set kept := st.cache.filter fun e => ¬ st.ttlSeconds < now - e.timestamp with hkeptdef
    set sortedE := stableSort (fun a b => a.lastAccessed ≤ b.lastAccessed) kept
      with hsorteddef
    set k := kept.length - st.maxCacheSize with hkdef
    have hperm : sortedE.Perm kept := stableSort_perm _ kept
    have hkeptnd : (kept.map fun e => e.hash).Nodup :=
      hnd.sublist ((List.filter_sublist st.cache).map fun e => e.hash)
    have hsortnd : (sortedE.map fun e => e.hash).Nodup :=
      ((hperm.map fun e => e.hash).nodup_iff).mpr hkeptnd
    have htd : sortedE.take k ++ sortedE.drop k = sortedE := List.take_append_drop k sortedE
    have hdisjmap : ((sortedE.take k).map fun e => e.hash).Disjoint
        ((sortedE.drop k).map fun e => e.hash) := by
      apply List.disjoint_of_nodup_append
      rw [← List.map_append, htd]
      exact hsortnd
    have hta : ((sortedE.take k).filter fun e =>
        ¬ (((sortedE.take k).map fun e => e.hash).contains e.hash)) = [] := by
      rw [List.filter_eq_nil_iff]
      intro e he
      simp only [decide_eq_true_eq, Decidable.not_not]
      exact List.elem_iff.mpr (List.mem_map_of_mem (fun e => e.hash) he)
    have htb : ((sortedE.drop k).filter fun e =>
        ¬ (((sortedE.take k).map fun e => e.hash).contains e.hash)) = sortedE.drop k := by
      rw [List.filter_eq_self]
      intro e he
      simp only [decide_eq_true_eq]
      intro hc
      exact hdisjmap (List.elem_iff.mp hc) (List.mem_map_of_mem (fun e => e.hash) he)
    have hfilter : (kept.filter fun e =>
        ¬ (((sortedE.take k).map fun e => e.hash).contains e.hash)).Perm
          (sortedE.drop k) := by
      have h1 := (hperm.symm).filter fun e =>
        ¬ (((sortedE.take k).map fun e => e.hash).contains e.hash)
      have hsplit : (sortedE.filter fun e =>
          ¬ (((sortedE.take k).map fun e => e.hash).contains e.hash))
          = ((sortedE.take k).filter fun e =>
              ¬ (((sortedE.take k).map fun e => e.hash).contains e.hash))
            ++ ((sortedE.drop k).filter fun e =>
              ¬ (((sortedE.take k).map fun e => e.hash).contains e.hash)) := by
        rw [← List.filter_append, htd]
      have h2 : (sortedE.filter fun e =>
          ¬ (((sortedE.take k).map fun e => e.hash).contains e.hash)) = sortedE.drop k := by
        rw [hsplit, hta, htb, List.nil_append]
      rw [← h2]
      exact h1
    have hpair := sorted_stableSort
      (fun a b : CacheEntry => a.lastAccessed ≤ b.lastAccessed) lruLe_trans lruLe_total kept
    have hcross : ∀ x ∈ sortedE.take k, ∀ y ∈ sortedE.drop k,
        x.lastAccessed ≤ y.lastAccessed := by
      rw [← hsorteddef] at hpair
      rw [← htd] at hpair
      rw [List.pairwise_append] at hpair
      intro x hx y hy
      have := hpair.2.2 x hx y hy
      simpa using this
    have hlen : (kept.filter fun e =>
        ¬ (((sortedE.take k).map fun e => e.hash).contains e.hash)).length
          = kept.length - k := by
      rw [hfilter.length_eq, List.length_drop, hperm.length_eq]
    rw [hres]
    refine ⟨?_, rfl, ?_, ?_, ?_, ?_⟩
    · intro e he hexp hmem
      have hek : e ∈ kept := List.mem_of_mem_filter hmem
      rw [hkeptdef, List.mem_filter] at hek
      simp only [decide_eq_true_eq] at hek
      exact hek.2 hexp
    · show st.statEvictLru + k
          = st.statEvictLru + (kept.length - min kept.length st.maxCacheSize)
      rw [min_eq_right (Nat.le_of_lt hover), hkdef]
    · show (kept.filter fun e =>
          ¬ (((sortedE.take k).map fun e => e.hash).contains e.hash)).length
        = min kept.length st.maxCacheSize
      rw [hlen, min_eq_right (Nat.le_of_lt hover), hkdef]
      omega
    · show (kept.filter fun e =>
          ¬ (((sortedE.take k).map fun e => e.hash).contains e.hash)).length
        ≤ st.maxCacheSize
      rw [hlen, hkdef]
      omega
    · intro e he hnot f hf
      have hez : e ∈ sortedE := hperm.mem_iff.mpr he
      have hf2 : f ∈ sortedE.drop k := hfilter.mem_iff.mp hf
      rw [← htd] at hez
      rcases List.mem_append.mp hez with h | h
      · exact hcross e h f hf2
      · exact absurd (hfilter.mem_iff.mpr h) hnot
  · have hres : evictOldEntries now st
        = { st with
            cache := st.cache.filter fun e => ¬ st.ttlSeconds < now - e.timestamp
            statEvictTtl := st.statEvictTtl
              + (st.cache.filter fun e => st.ttlSeconds < now - e.timestamp).length } := by
      simp only [evictOldEntries]
      rw [if_neg hover]
    have hle : (st.cache.filter fun e => ¬ st.ttlSeconds < now - e.timestamp).length
        ≤ st.maxCacheSize := Nat.not_lt.mp hover
    rw [hres]
    refine ⟨?_, rfl, ?_, ?_, ?_, ?_⟩
    · intro e he hexp hmem
      rw [List.mem_filter] at hmem
      simp only [decide_eq_true_eq] at hmem
      exact hmem.2 hexp
    · show st.statEvictLru
        = st.statEvictLru
          + ((st.cache.filter fun e => ¬ st.ttlSeconds < now - e.timestamp).length
              - min (st.cache.filter fun e => ¬ st.ttlSeconds < now - e.timestamp).length
                  st.maxCacheSize)
      rw [min_eq_left hle]
      omega
    · show (st.cache.filter fun e => ¬ st.ttlSeconds < now - e.timestamp).length
        = min (st.cache.filter fun e => ¬ st.ttlSeconds < now - e.timestamp).length
            st.maxCacheSize
      rw [min_eq_left hle]
    · exact hle
    · intro e he hnot f hf
      exact absurd he hnot

/-! ### C7 — one write then one hit, hit rate 1/2 -/

/-- The C7 scenario: `prepare_messages_for_caching` called twice on the
same single system message, starting from a fresh `CacheManager`
(defaults `max_cache_size=100`, `ttl_seconds=300`). -/
def recordTwice (hf : String → String) (now1 now2 : Int) (text model : String) :
    CacheState :=
  prepareMessagesState hf now2 [{ role := "system", content := .str text }] model
    (prepareMessagesState hf now1 [{ role := "system", content := .str text }] model
      (initCacheState 100 300))

/-- C7: recording the same cache-eligible text for an allow-listed
Anthropic model twice yields exactly one write (first call inserts a new
entry) and one hit (second call increments the entry's hit counter and
refreshes its last-accessed time), after which the reported hit rate is
1/2; and on a fresh state with zero hits and writes the hit rate is 0. -/
theorem c7_record_twice_hit_rate (hf : String → String) (now1 now2 : Int)
    (text model : String)
    (hsup : modelSupported model = true)
    (hanth : strContains (lowerStr model) "anthropic" = true)
    (hlen : 100 ≤ text.length)
    (httl : now2 - now1 ≤ 300) :
    (recordTwice hf now1 now2 text model).statWrites = 1 ∧
    (recordTwice hf now1 now2 text model).statHits = 1 ∧
    (recordTwice hf now1 now2 text model).cache
      = [⟨text, hf text, model, now1, 1, now2, tokenEstimate text⟩] ∧
    hitRate (recordTwice hf now1 now2 text model) = 1 / 2 ∧
    hitRate (initCacheState 100 300) = 0 := by
  have hsc : shouldCache text model = true := by
    unfold shouldCache
    rw [if_neg (by simp [hsup]), if_neg (by omega)]
  have hstep1 : prepareStep hf now1 model (initCacheState 100 300)
        { role := "system", content := .str text }
      = ⟨100, 300, [⟨text, hf text, model, now1, 0, now1, tokenEstimate text⟩],
         1, 0, 0, 0⟩ := by
    simp only [prepareStep, hanth, hsc, initCacheState, recordContent]
    simp [List.find?_nil]
  have hev1 : evictOldEntries now1
        (⟨100, 300, [⟨text, hf text, model, now1, 0, now1, tokenEstimate text⟩],
          1, 0, 0, 0⟩ : CacheState)
      = ⟨100, 300, [⟨text, hf text, model, now1, 0, now1, tokenEstimate text⟩],
         1, 0, 0, 0⟩ := by
    have hp1 : decide ((300 : Int) < now1 - now1) = false :=
      decide_eq_false (by omega)
    simp only [evictOldEntries, List.filter_cons, List.filter_nil]
    simp [hp1]
  have hs1 : prepareMessagesState hf now1 [{ role := "system", content := .str text }]
        model (initCacheState 100 300)
      = ⟨100, 300, [⟨text, hf text, model, now1, 0, now1, tokenEstimate text⟩],
         1, 0, 0, 0⟩ := by
    unfold prepareMessagesState
    rw [if_neg (by simp [hsup])]
    rw [List.foldl_cons, List.foldl_nil, hstep1, hev1]
  have hstep2 : prepareStep hf now2 model
        (⟨100, 300, [⟨text, hf text, model, now1, 0, now1, tokenEstimate text⟩],
          1, 0, 0, 0⟩ : CacheState)
        { role := "system", content := .str text }
      = ⟨100, 300, [⟨text, hf text, model, now1, 1, now2, tokenEstimate text⟩],
         1, 1, 0, 0⟩ := by
    simp only [prepareStep, hanth, hsc]
    simp [recordContent, CacheEntry.access, List.find?_cons_of_pos]
  have hev2 : evictOldEntries now2
        (⟨100, 300, [⟨text, hf text, model, now1, 1, now2, tokenEstimate text⟩],
          1, 1, 0, 0⟩ : CacheState)
      = ⟨100, 300, [⟨text, hf text, model, now1, 1, now2, tokenEstimate text⟩],
         1, 1, 0, 0⟩ := by
    have hp2 : decide ((300 : Int) < now2 - now1) = false :=
      decide_eq_false (by omega)
    have httl2 : now2 ≤ 300 + now1 := by omega
    simp only [evictOldEntries, List.filter_cons, List.filter_nil]
    simp [hp2, httl2]
  have hs2 : recordTwice hf now1 now2 text model
      = ⟨100, 300, [⟨text, hf text, model, now1, 1, now2, tokenEstimate text⟩],
         1, 1, 0, 0⟩ := by
    unfold recordTwice
    rw [hs1]
    unfold prepareMessagesState
    rw [if_neg (by simp [hsup])]
    rw [List.foldl_cons, List.foldl_nil, hstep2, hev2]
  rw [hs2]
  refine ⟨rfl, rfl, rfl, ?_, ?_⟩
  · unfold hitRate
    norm_num
  · unfold hitRate initCacheState
    norm_num

/-! ### Remaining witnesses -/

/-- Witness for C5 at concrete id sets. -/
theorem c5_witness :
    (nodeStoreTurn {5, 1} {9}).card ≤ MAX_MESSAGE_NODES :=
  (c5_node_store_capacity {5, 1} {9}).1

def c6ExState : CacheState :=
  ⟨1, 300,
   [⟨"c1", "h1", "m", 0, 5, 999, 1⟩, ⟨"c2", "h2", "m", 900, 0, 910, 1⟩,
    ⟨"c3", "h3", "m", 950, 0, 905, 1⟩],
   0, 0, 0, 0⟩

/-- Witness for C6: capacity 1, one expired entry and two live ones. -/
theorem c6_witness :
    ((c6ExState.cache.map fun e => e.hash).Nodup) ∧
    (evictOldEntries 1000 c6ExState).cache.length ≤ c6ExState.maxCacheSize :=
  ⟨by decide, (c6_two_phase_eviction 1000 c6ExState (by decide)).2.2.2.2.1⟩

def c7ExText : String :=
  "aaaaaaaaaaaaaaaaaaaaaaaaaaaaaaaaaaaaaaaaaaaaaaaaaaaaaaaaaaaaaaaaaaaaaaaaaaaaaaaaaaaaaaaaaaaaaaaaaaaa"

/-- Witness for C7 at a concrete 100-character text and an allow-listed
Anthropic model. -/
theorem c7_witness :
    modelSupported "anthropic/claude-3-opus" = true ∧
    (recordTwice id 0 10 c7ExText "anthropic/claude-3-opus").statWrites = 1 ∧
    (recordTwice id 0 10 c7ExText "anthropic/claude-3-opus").statHits = 1 :=
  ⟨by decide,
   (c7_record_twice_hit_rate id 0 10 c7ExText "anthropic/claude-3-opus"
     (by decide) (by decide) (by decide) (by decide)).1,
   (c7_record_twice_hit_rate id 0 10 c7ExText "anthropic/claude-3-opus"
     (by decide) (by decide) (by decide) (by decide)).2.1⟩

/-- Witness for C8: empty list for the budget part, and six concrete
messages for the system-marking part. -/
theorem c8_witness :
    (∀ m ∈ ([] : List Msg), msgMarkCount m = 0) ∧
    markedAt (applyAnthropicCacheControl 3
      [{ role := "user", content := .str "aaa" }, { role := "user", content := .str "bbb" },
       { role := "user", content := .str "ccc" }, { role := "user", content := .str "ddd" },
       { role := "user", content := .str "eee" }, { role := "system", content := .str "sss" }])
      5 0 = true :=
  ⟨by simp,
   (c8_breakpoint_budget_and_system 3 [] (by simp) "sss" "aaa" "bbb" "ccc" "ddd" "eee"
     (by decide) (by decide) (by decide) (by decide) (by decide) (by decide)).2⟩

/-- Witness for C6's claim theorem partner: the expired high-hit entry is
gone after eviction (instantiating the first conjunct). -/
theorem c6_expired_gone_example :
    (⟨"c1", "h1", "m", 0, 5, 999, 1⟩ : CacheEntry) ∉ (evictOldEntries 1000 c6ExState).cache := by
  decide

end Llmcord
